import Mathlib

/-!
Shallow embedding of `src/main.py` of the expense-tracker repository.

The program stores expense rows in a single SQLite table
`expenses(id INTEGER PRIMARY KEY AUTOINCREMENT, date TEXT, amount REAL,
category TEXT, subcategory TEXT DEFAULT '', note TEXT DEFAULT '')` and
exposes three operations:

* `add_expense`  — INSERT of one row; `subcategory`/`note` pass through
  Python's `args.subcategory or ""` (None and "" both become "").
* `list_expenses` — `SELECT * WHERE date BETWEEN ? AND ? ORDER BY id ASC`.
* `summarize` — `SELECT category, SUM(amount) WHERE date BETWEEN ? AND ?`
  plus, when `if args.category:` is truthy (non-None, non-empty string),
  `AND category = ?`, then `GROUP BY category ORDER BY category ASC`.

The table is embedded as a list of rows in insertion (rowid) order plus
the AUTOINCREMENT counter.  SQLite TEXT comparison under the default
BINARY collation (memcmp on the UTF-8 encoding, which on codepoint
sequences is lexicographic order) is embedded as the computable
lexicographic comparison `charsLt` on `String.data`; REAL amounts are
embedded as exact rationals (`ℚ`), which keeps the arithmetic structure
of `SUM` while abstracting floating-point rounding.  `ORDER BY id ASC`
is embedded as an insertion sort on the id key, and `GROUP BY category
ORDER BY category ASC` as insertion into a sorted duplicate-free list of
category keys.
-/

/-- Lexicographic strict comparison of codepoint sequences: the order in
which SQLite's BINARY collation compares TEXT values (memcmp on UTF-8
bytes agrees with codepoint-lexicographic order). -/
def charsLt : List Char → List Char → Bool
  | [], [] => false
  | [], _ :: _ => true
  | _ :: _, [] => false
  | a :: as, b :: bs =>
      if a.toNat < b.toNat then true
      else if a.toNat = b.toNat then charsLt as bs
      else false

/-- Strict TEXT comparison `s < t` under the BINARY collation. -/
def textLt (s t : String) : Bool := charsLt s.data t.data

/-- Non-strict TEXT comparison `s <= t` under the BINARY collation,
as used by `BETWEEN`. -/
def textLe (s t : String) : Bool := !(textLt t s)

/-- One row of the `expenses` table. -/
structure Expense where
  id : Nat
  date : String
  amount : ℚ
  category : String
  subcategory : String
  note : String
deriving Repr, DecidableEq

/-- The persisted table: rows in rowid (insertion) order, together with the
AUTOINCREMENT counter, i.e. the id the next INSERT will receive. -/
structure DB where
  rows : List Expense
  nextId : Nat
deriving Repr, DecidableEq

/-- The freshly created table: no rows, first AUTOINCREMENT rowid is 1. -/
def emptyDB : DB := ⟨[], 1⟩

/-- The `init_db` step (`CREATE TABLE IF NOT EXISTS expenses(...)`): the backing file
either has no `expenses` table (`none`) or an existing one (`some db`); the
statement creates the empty table only when absent. -/
def init_db : Option DB → Option DB
  | none => some emptyDB
  | some db => some db

/-- Arguments of the `add_expense` tool (`AddExpenseArgs` pydantic model):
`subcategory` and `note` are `Optional[str]`, so a caller may pass a string
or null (`none`); the pydantic default for an omitted field is `some ""`. -/
structure AddExpenseArgs where
  date : String
  amount : ℚ
  category : String
  subcategory : Option String := some ""
  note : Option String := some ""
deriving Repr, DecidableEq

/-- Python's `x or ""` on an `Optional[str]`: both `None` and the falsy
empty string yield `""`; any other string passes through. -/
def pyOrEmpty : Option String → String
  | none => ""
  | some s => if s = "" then "" else s

/-- The `add_expense` tool: INSERT one row with the AUTOINCREMENT id, defaulting
`subcategory`/`note` via `or ""`; returns the updated table together with
`cur.lastrowid`, the id just assigned. -/
def add_expense (args : AddExpenseArgs) (db : DB) : DB × Nat :=
  let row : Expense :=
    ⟨db.nextId, args.date, args.amount, args.category,
      pyOrEmpty args.subcategory, pyOrEmpty args.note⟩
  (⟨db.rows ++ [row], db.nextId + 1⟩, db.nextId)

/-- The WHERE clause `date BETWEEN ? AND ?`: inclusive on both bounds,
TEXT comparison. -/
def dateInRange (startDate endDate : String) (e : Expense) : Bool :=
  textLe startDate e.date && textLe e.date endDate

/-- The rows selected by `WHERE date BETWEEN ? AND ?`, in table scan
(rowid) order. -/
def rowsInRange (startDate endDate : String) (db : DB) : List Expense :=
  db.rows.filter (dateInRange startDate endDate)

/-- Insert a row into a list kept ascending by id (one step of the
`ORDER BY id ASC` sort). -/
def insertById (e : Expense) : List Expense → List Expense
  | [] => [e]
  | x :: xs => if e.id ≤ x.id then e :: x :: xs else x :: insertById e xs

/-- The `ORDER BY id ASC` step as an insertion sort on the id key. -/
def sortById : List Expense → List Expense
  | [] => []
  | x :: xs => insertById x (sortById xs)

/-- The `list_expenses` tool: rows with `date BETWEEN start_date AND end_date`,
`ORDER BY id ASC`, each row returned with its full column set. -/
def list_expenses (startDate endDate : String) (db : DB) : List Expense :=
  sortById (rowsInRange startDate endDate db)

/-- The row set `summarize` aggregates over: the date-range filter, plus
`AND category = ?` exactly when `if args.category:` finds the argument
truthy (non-None and non-empty). -/
def summarizeRows (startDate endDate : String) (cat : Option String)
    (db : DB) : List Expense :=
  let base := rowsInRange startDate endDate db
  match cat with
  | none => base
  | some c => if c = "" then base else base.filter (fun e => e.category == c)

/-- Insert a category key into a sorted duplicate-free key list
(one step of `GROUP BY category ORDER BY category ASC`). -/
def insertCat (c : String) : List String → List String
  | [] => [c]
  | x :: xs =>
      if c = x then x :: xs
      else if textLt c x then c :: x :: xs
      else x :: insertCat c xs

/-- The distinct category keys of a row set, ascending
(`GROUP BY category ORDER BY category ASC`). -/
def groupKeys (l : List Expense) : List String :=
  l.foldr (fun e acc => insertCat e.category acc) []

/-- The `SUM(amount)` aggregate over the rows of one category group. -/
def groupTotal (c : String) (l : List Expense) : ℚ :=
  ((l.filter (fun e => e.category == c)).map (·.amount)).sum

/-- The `summarize` tool: one `{category, total_amount}` pair per distinct category
among the filtered rows, ordered by category ascending. -/
def summarize (startDate endDate : String) (cat : Option String)
    (db : DB) : List (String × ℚ) :=
  let l := summarizeRows startDate endDate cat db
  (groupKeys l).map (fun c => (c, groupTotal c l))

/-! ### Order lemmas for the BINARY-collation comparison -/

theorem charsLt_self : ∀ l : List Char, charsLt l l = false
  | [] => rfl
  | a :: as => by simp [charsLt, charsLt_self as]

theorem textLe_refl (s : String) : textLe s s = true := by
  simp [textLe, textLt, charsLt_self]

theorem charsLt_trans :
    ∀ a b c : List Char, charsLt a b = true → charsLt b c = true →
      charsLt a c = true := by
  intro a
  induction a with
  | nil =>
      intro b c h1 h2
      cases b with
      | nil => simp [charsLt] at h1
      | cons y ys =>
          cases c with
          | nil => simp [charsLt] at h2
          | cons z zs => simp [charsLt]
  | cons x xs ih =>
      intro b c h1 h2
      cases b with
      | nil => simp [charsLt] at h1
      | cons y ys =>
          cases c with
          | nil => simp [charsLt] at h2
          | cons z zs =>
              simp only [charsLt] at h1 h2 ⊢
              split_ifs at h1 h2 ⊢ <;>
                first
                  | rfl
                  | omega
                  | exact ih ys zs h1 h2

theorem charsLt_connex :
    ∀ a b : List Char, a ≠ b → charsLt a b = false → charsLt b a = true := by
  intro a
  induction a with
  | nil =>
      intro b hne h
      cases b with
      | nil => exact absurd rfl hne
      | cons y ys => simp [charsLt] at h
  | cons x xs ih =>
      intro b hne h
      cases b with
      | nil => simp [charsLt]
      | cons y ys =>
          simp only [charsLt] at h ⊢
          by_cases hlt : x.toNat < y.toNat
          · rw [if_pos hlt] at h
            exact absurd h (by simp)
          · rw [if_neg hlt] at h
            by_cases heq : x.toNat = y.toNat
            · rw [if_pos heq] at h
              -- heads have equal codepoints, hence are equal characters
              have hxy : x = y := Char.ext (UInt32.ext heq)
              subst hxy
              rw [if_neg (lt_irrefl x.toNat), if_pos rfl]
              exact ih ys (fun hys => hne (by rw [hys])) h
            · have hgt : y.toNat < x.toNat := by omega
              rw [if_pos hgt]

theorem charsLt_neg_trans (a b c : List Char)
    (hba : charsLt b a = false) (hcb : charsLt c b = false) :
    charsLt c a = false := by
  by_contra hc
  have hca : charsLt c a = true := by
    cases hval : charsLt c a with
    | false => exact absurd hval hc
    | true => rfl
  by_cases hab : a = b
  · subst hab
    rw [hcb] at hca
    exact Bool.false_ne_true hca
  · have hab' : charsLt a b = true := charsLt_connex b a (fun h => hab h.symm) hba
    have := charsLt_trans c a b hca hab'
    rw [hcb] at this
    exact Bool.false_ne_true this

theorem textLt_of_ne_of_not_lt {s t : String} (hne : s ≠ t)
    (h : textLt s t = false) : textLt t s = true :=
  charsLt_connex s.data t.data (fun hd => hne (String.toList_inj.mp hd)) h

theorem textLt_trans {a b c : String} (h1 : textLt a b = true)
    (h2 : textLt b c = true) : textLt a c = true :=
  charsLt_trans a.data b.data c.data h1 h2

/-- Transitivity of `textLe`: `a <= b` and `b <= c` give `a <= c`. -/
theorem textLe_trans {a b c : String} (h1 : textLe a b = true)
    (h2 : textLe b c = true) : textLe a c = true := by
  simp only [textLe, Bool.not_eq_true'] at h1 h2 ⊢
  exact charsLt_neg_trans a.data b.data c.data h1 h2

/-! ### Basic lemmas about the sort on ids -/

theorem insertById_perm (e : Expense) (l : List Expense) :
    (insertById e l).Perm (e :: l) := by
  induction l with
  | nil => simp [insertById]
  | cons x xs ih =>
      by_cases h : e.id ≤ x.id
      · simp [insertById, h]
      · simp only [insertById, if_neg h]
        exact ((ih.cons x).trans (List.Perm.swap e x xs))

theorem sortById_perm (l : List Expense) : (sortById l).Perm l := by
  induction l with
  | nil => simp [sortById]
  | cons x xs ih =>
      exact (insertById_perm x (sortById xs)).trans (ih.cons x)

theorem mem_insertById {a e : Expense} {l : List Expense} :
    a ∈ insertById e l ↔ a = e ∨ a ∈ l := by
  rw [(insertById_perm e l).mem_iff]; simp

theorem mem_sortById {a : Expense} {l : List Expense} :
    a ∈ sortById l ↔ a ∈ l := (sortById_perm l).mem_iff

theorem insertById_sorted (e : Expense) (l : List Expense)
    (h : l.Pairwise (fun a b => a.id ≤ b.id)) :
    (insertById e l).Pairwise (fun a b => a.id ≤ b.id) := by
  induction l with
  | nil => simp [insertById]
  | cons x xs ih =>
      rcases List.pairwise_cons.mp h with ⟨hx, hxs⟩
      by_cases he : e.id ≤ x.id
      · simp only [insertById, if_pos he]
        refine List.pairwise_cons.mpr ⟨?_, h⟩
        intro b hb
        rcases List.mem_cons.mp hb with rfl | hb
        · exact he
        · exact le_trans he (hx b hb)
      · simp only [insertById, if_neg he]
        refine List.pairwise_cons.mpr ⟨?_, ih hxs⟩
        intro b hb
        rcases mem_insertById.mp hb with rfl | hb
        · exact le_of_not_le he
        · exact hx b hb

theorem sortById_sorted (l : List Expense) :
    (sortById l).Pairwise (fun a b => a.id ≤ b.id) := by
  induction l with
  | nil => simp [sortById]
  | cons x xs ih => exact insertById_sorted x (sortById xs) ih

/-! ### Basic lemmas about the category grouping -/

theorem mem_insertCat {a c : String} {l : List String} :
    a ∈ insertCat c l ↔ a = c ∨ a ∈ l := by
  induction l with
  | nil => simp [insertCat]
  | cons x xs ih =>
      by_cases h1 : c = x
      · subst h1; simp only [insertCat, if_pos rfl]
        constructor
        · intro h; exact Or.inr h
        · rintro (rfl | h)
          · exact List.mem_cons_self _ _
          · exact h
      · by_cases h2 : textLt c x = true
        · simp [insertCat, h1, h2]
        · simp only [insertCat, if_neg h1, if_neg h2, List.mem_cons, ih]
          tauto

theorem mem_groupKeys {a : String} {l : List Expense} :
    a ∈ groupKeys l ↔ ∃ e ∈ l, e.category = a := by
  induction l with
  | nil => simp [groupKeys]
  | cons x xs ih =>
      simp only [groupKeys, List.foldr_cons] at *
      rw [mem_insertCat, ih]
      constructor
      · rintro (rfl | ⟨e, he, rfl⟩)
        · exact ⟨x, List.mem_cons_self _ _, rfl⟩
        · exact ⟨e, List.mem_cons_of_mem _ he, rfl⟩
      · rintro ⟨e, he, rfl⟩
        rcases List.mem_cons.mp he with rfl | he
        · exact Or.inl rfl
        · exact Or.inr ⟨e, he, rfl⟩

theorem insertCat_sorted (c : String) (l : List String)
    (h : l.Pairwise (fun a b => textLt a b = true)) :
    (insertCat c l).Pairwise (fun a b => textLt a b = true) := by
  induction l with
  | nil => simp [insertCat]
  | cons x xs ih =>
      rcases List.pairwise_cons.mp h with ⟨hx, hxs⟩
      by_cases h1 : c = x
      · subst h1; simpa [insertCat] using h
      · by_cases h2 : textLt c x = true
        · simp only [insertCat, if_neg h1, if_pos h2]
          refine List.pairwise_cons.mpr ⟨?_, h⟩
          intro b hb
          rcases List.mem_cons.mp hb with rfl | hb
          · exact h2
          · exact textLt_trans h2 (hx b hb)
        · simp only [insertCat, if_neg h1, if_neg h2]
          refine List.pairwise_cons.mpr ⟨?_, ih hxs⟩
          intro b hb
          rcases mem_insertCat.mp hb with rfl | hb
          · exact textLt_of_ne_of_not_lt h1 (by simpa using h2)
          · exact hx b hb

theorem groupKeys_sorted (l : List Expense) :
    (groupKeys l).Pairwise (fun a b => textLt a b = true) := by
  induction l with
  | nil => simp [groupKeys]
  | cons x xs ih =>
      simpa only [groupKeys, List.foldr_cons] using
        insertCat_sorted x.category (groupKeys xs) ih

/-! ### Small helper lemmas -/

theorem pyOrEmpty_eq_getD (o : Option String) : pyOrEmpty o = o.getD "" := by
  cases o with
  | none => rfl
  | some s => by_cases h : s = "" <;> simp [pyOrEmpty, h]

theorem mem_rowsInRange {st en : String} {db : DB} {e : Expense} :
    e ∈ rowsInRange st en db ↔
      e ∈ db.rows ∧ textLe st e.date = true ∧ textLe e.date en = true := by
  simp [rowsInRange, List.mem_filter, dateInRange]

/-- A small concrete table used to instantiate the hypotheses of the
universally quantified theorems below (the three rows of spec §8). -/
def sampleDB : DB :=
  ⟨[⟨1, "2024-01-01", 10, "food", "", ""⟩,
    ⟨2, "2024-01-15", 5, "food", "groceries", "weekly"⟩,
    ⟨3, "2024-02-01", 20, "transport", "", ""⟩], 4⟩

def sampleArgs : AddExpenseArgs := ⟨"2024-03-05", 7, "misc", none, none⟩

def sampleArgs2 : AddExpenseArgs :=
  ⟨"2024-03-06", 8, "misc", some "bus", some "trip"⟩

/-! ### Claim theorems -/

/-- C9: schema initialization is idempotent: running the create-if-absent
step twice equals running it once, an existing table (with all its rows)
is left untouched, and afterwards exactly one `expenses` table exists. -/
theorem init_db_idempotent (s : Option DB) :
    init_db (init_db s) = init_db s ∧
    (∀ db : DB, init_db (some db) = some db) ∧
    ∃ db : DB, init_db s = some db := by
  refine ⟨?_, fun db => rfl, ?_⟩ <;> cases s <;> simp [init_db]

/-- C10: an empty-string category filter is falsy for `if args.category:`,
so `summarize` with `category=""` coincides with `summarize` with the
filter omitted. -/
theorem summarize_empty_category_filter (startDate endDate : String)
    (db : DB) :
    summarize startDate endDate (some "") db =
      summarize startDate endDate none db := rfl

/-- C8: `add_expense` appends exactly one row whose `subcategory` and
`note` are the given strings defaulted to `""`; a `none` (null) or
omitted argument is stored as the empty string, and the stored fields are
total `String` values, never null. -/
theorem add_expense_never_null (args : AddExpenseArgs) (db : DB) :
    (add_expense args db).1.rows =
      db.rows ++ [⟨db.nextId, args.date, args.amount, args.category,
        args.subcategory.getD "", args.note.getD ""⟩] ∧
    pyOrEmpty none = "" ∧ pyOrEmpty (some "") = "" := by
  refine ⟨?_, rfl, rfl⟩
  simp [add_expense, pyOrEmpty_eq_getD]

/-- C4: inserting `(d, a, c, s, n)` into the empty store and listing the
range `[d, d]` returns exactly one record carrying those field values,
with omitted/null `subcategory`/`note` returned as `""`. -/
theorem create_then_list_roundtrip (d : String) (a : ℚ) (c : String)
    (s n : Option String) :
    list_expenses d d ((add_expense ⟨d, a, c, s, n⟩ emptyDB).1) =
      [⟨1, d, a, c, s.getD "", n.getD ""⟩] := by
  simp [list_expenses, add_expense, emptyDB, rowsInRange, dateInRange,
    textLe_refl, sortById, insertById, pyOrEmpty_eq_getD]

/-- C7: ids of successive `add_expense` calls strictly increase; the
insert leaves every existing row in place and never reuses an existing
id; the id bound invariant is preserved, so assignment is monotone over
the store's lifetime. -/
theorem create_ids_monotone (db : DB) (a1 a2 : AddExpenseArgs)
    (hinv : ∀ e ∈ db.rows, e.id < db.nextId) :
    (add_expense a1 db).2 <
      (add_expense a2 (add_expense a1 db).1).2 ∧
    (∀ e ∈ db.rows,
      e ∈ (add_expense a1 db).1.rows ∧ e.id ≠ (add_expense a1 db).2) ∧
    (∀ e ∈ (add_expense a1 db).1.rows,
      e.id < (add_expense a1 db).1.nextId) := by
  refine ⟨?_, ?_, ?_⟩
  · simp [add_expense]
  · intro e he
    exact ⟨by simp [add_expense, he], Nat.ne_of_lt (hinv e he)⟩
  · intro e he
    simp only [add_expense, List.mem_append, List.mem_singleton] at he
    rcases he with he | rfl
    · exact Nat.lt_succ_of_lt (hinv e he)
    · simp [add_expense]

theorem create_ids_monotone_witness :
    (∀ e ∈ sampleDB.rows, e.id < sampleDB.nextId) ∧
    (add_expense sampleArgs sampleDB).2 <
      (add_expense sampleArgs2 (add_expense sampleArgs sampleDB).1).2 :=
  ⟨by decide,
    (create_ids_monotone sampleDB sampleArgs sampleArgs2 (by decide)).1⟩

theorem map_fst_pairs {α β : Type} (f : α → β) (l : List α) :
    (l.map (fun c => (c, f c))).map Prod.fst = l := by
  induction l with
  | nil => rfl
  | cons x xs ih => simp [ih]

theorem filter_filter_comm (l : List Expense) (p q : Expense → Bool) :
    (l.filter p).filter q = l.filter (fun e => p e && q e) := by
  induction l with
  | nil => rfl
  | cons x xs ih =>
      by_cases hp : p x <;> by_cases hq : q x <;>
        simp [List.filter_cons, hp, hq, ih]

/-- A one-row table whose short date keeps concrete evaluation light. -/
def witnessDB : DB := ⟨[⟨1, "a", 3, "food", "", ""⟩], 2⟩

/-- C1: `list_expenses` returns exactly the stored rows whose date lies in
the inclusive range under string comparison, as full records, ordered by
strictly ascending id (ids being pairwise distinct in the table). -/
theorem list_expenses_spec (startDate endDate : String) (db : DB)
    (hids : db.rows.Pairwise (fun a b => a.id < b.id)) :
    (∀ e, e ∈ list_expenses startDate endDate db ↔
      e ∈ db.rows ∧ textLe startDate e.date = true ∧
        textLe e.date endDate = true) ∧
    (list_expenses startDate endDate db).Perm
      (rowsInRange startDate endDate db) ∧
    (list_expenses startDate endDate db).Pairwise
      (fun a b => a.id < b.id) := by
  refine ⟨?_, sortById_perm _, ?_⟩
  · intro e
    rw [list_expenses, mem_sortById, mem_rowsInRange]
  · have hle : (list_expenses startDate endDate db).Pairwise
        (fun a b => a.id ≤ b.id) := sortById_sorted _
    have hne_rows : db.rows.Pairwise (fun a b => a.id ≠ b.id) :=
      hids.imp (fun h => Nat.ne_of_lt h)
    have hne_filter : (rowsInRange startDate endDate db).Pairwise
        (fun a b => a.id ≠ b.id) :=
      hne_rows.sublist (List.filter_sublist db.rows)
    have hne_out : (list_expenses startDate endDate db).Pairwise
        (fun a b => a.id ≠ b.id) := by
      refine ((sortById_perm _).pairwise_iff ?_).mpr hne_filter
      intro a b hab
      exact hab.symm
    exact (hle.and hne_out).imp (fun h => lt_of_le_of_ne h.1 h.2)

theorem list_expenses_spec_witness :
    sampleDB.rows.Pairwise (fun a b => a.id < b.id) ∧
    (list_expenses "2024-01-01" "2024-01-15" sampleDB).Pairwise
      (fun a b => a.id < b.id) :=
  ⟨by decide,
    (list_expenses_spec "2024-01-01" "2024-01-15" sampleDB (by decide)).2.2⟩

/-- C5: when the start bound is lexicographically after the end bound,
both `list_expenses` and `summarize` (with or without a category filter)
return the empty sequence, with no error path involved. -/
theorem reversed_range_empty (startDate endDate : String) (db : DB)
    (h : textLt endDate startDate = true) :
    list_expenses startDate endDate db = [] ∧
    ∀ cat : Option String, summarize startDate endDate cat db = [] := by
  have hnil : rowsInRange startDate endDate db = [] := by
    refine List.filter_eq_nil_iff.mpr ?_
    intro e _
    intro hdr
    have hr : textLe startDate e.date = true ∧ textLe e.date endDate = true := by
      simpa [dateInRange] using hdr
    have hle : textLe startDate endDate = true := textLe_trans hr.1 hr.2
    rw [textLe, h] at hle
    exact Bool.false_ne_true hle
  constructor
  · rw [list_expenses, hnil]
    rfl
  · intro cat
    cases cat with
    | none => simp [summarize, summarizeRows, hnil, groupKeys]
    | some c =>
        by_cases hc : c = "" <;>
          simp [summarize, summarizeRows, hnil, groupKeys, hc]

theorem reversed_range_empty_witness :
    textLt "2024-01-01" "2024-03-01" = true ∧
    list_expenses "2024-03-01" "2024-01-01" sampleDB = [] :=
  ⟨by decide,
    (reversed_range_empty "2024-03-01" "2024-01-01" sampleDB (by decide)).1⟩

/-- C6: every `{category, total_amount}` pair that `summarize` returns is
backed by at least one stored row that lies in the date range, carries
that category, and passes the category filter when one is active; a
category with no matching rows never appears. -/
theorem summarize_no_ghost (startDate endDate : String) (cat : Option String)
    (db : DB) :
    ∀ p ∈ summarize startDate endDate cat db,
      ∃ e ∈ db.rows,
        (textLe startDate e.date = true ∧ textLe e.date endDate = true) ∧
        e.category = p.1 ∧
        (∀ c, cat = some c → c ≠ "" → e.category = c) := by
  intro p hp
  simp only [summarize, List.mem_map] at hp
  obtain ⟨k, hk, rfl⟩ := hp
  obtain ⟨e, he, hcat⟩ := mem_groupKeys.mp hk
  have he' : e ∈ rowsInRange startDate endDate db := by
    cases cat with
    | none => exact he
    | some c =>
        by_cases hc : c = ""
        · simpa [summarizeRows, hc] using he
        · simp only [summarizeRows, if_neg hc, List.mem_filter] at he
          exact he.1
  obtain ⟨hmem, hr⟩ := mem_rowsInRange.mp he'
  refine ⟨e, hmem, hr, hcat, ?_⟩
  intro c hceq hcne
  subst hceq
  simp only [summarizeRows, if_neg hcne, List.mem_filter] at he
  simpa using he.2

theorem summarize_no_ghost_witness :
    ∃ e ∈ witnessDB.rows,
      (textLe "a" e.date = true ∧ textLe e.date "a" = true) ∧
      e.category = (("food", (3 : ℚ)) : String × ℚ).1 ∧
      (∀ c, (none : Option String) = some c → c ≠ "" → e.category = c) :=
  summarize_no_ghost "a" "a" none witnessDB ("food", 3)
    (by simp [summarize, summarizeRows, rowsInRange, dateInRange,
      textLe_refl, groupKeys, insertCat, groupTotal, witnessDB])

/-- C2: `summarize` without a category filter returns, for each category
present among the in-range rows, the pair of that category and the
arithmetic sum of the amounts of the in-range rows of that category;
exactly the present categories appear, and the pairs are ordered by
category strictly ascending (lexicographic). -/
theorem summarize_spec (startDate endDate : String) (db : DB) :
    ((summarize startDate endDate none db).map Prod.fst).Pairwise
      (fun a b => textLt a b = true) ∧
    (∀ c : String,
      (∃ q, (c, q) ∈ summarize startDate endDate none db) ↔
        ∃ e ∈ db.rows,
          (textLe startDate e.date = true ∧ textLe e.date endDate = true) ∧
          e.category = c) ∧
    (∀ p ∈ summarize startDate endDate none db,
      p.2 = ((db.rows.filter (fun e =>
        dateInRange startDate endDate e && (e.category == p.1))).map
          (·.amount)).sum) := by
  refine ⟨?_, ?_, ?_⟩
  · have hmap : (summarize startDate endDate none db).map Prod.fst =
        groupKeys (summarizeRows startDate endDate none db) := by
      simp only [summarize]
      exact map_fst_pairs _ _
    rw [hmap]
    exact groupKeys_sorted _
  · intro c
    constructor
    · rintro ⟨q, hq⟩
      simp only [summarize, List.mem_map] at hq
      obtain ⟨k, hk, hkq⟩ := hq
      obtain ⟨rfl, -⟩ := Prod.mk.injEq .. ▸ And.intro (congrArg Prod.fst hkq)
        (congrArg Prod.snd hkq)
      obtain ⟨e, he, hcat⟩ := mem_groupKeys.mp hk
      obtain ⟨hmem, hr⟩ := mem_rowsInRange.mp he
      exact ⟨e, hmem, hr, hcat⟩
    · rintro ⟨e, he, hr, hcat⟩
      refine ⟨groupTotal c (summarizeRows startDate endDate none db), ?_⟩
      simp only [summarize, List.mem_map]
      exact ⟨c, mem_groupKeys.mpr ⟨e, mem_rowsInRange.mpr ⟨he, hr⟩, hcat⟩, rfl⟩
  · intro p hp
    simp only [summarize, List.mem_map] at hp
    obtain ⟨k, hk, rfl⟩ := hp
    show groupTotal k (summarizeRows startDate endDate none db) = _
    rw [groupTotal,
      show summarizeRows startDate endDate none db =
        db.rows.filter (dateInRange startDate endDate) from rfl,
      filter_filter_comm]

theorem summarize_spec_witness :
    ((summarize "2024-01-01" "2024-02-01" none sampleDB).map Prod.fst).Pairwise
      (fun a b => textLt a b = true) :=
  (summarize_spec "2024-01-01" "2024-02-01" sampleDB).1

/-- C3: with a non-null, non-empty category argument `c`, `summarize`
aggregates exactly the in-range rows whose `category` equals `c` under
exact string equality: the result coincides with an unfiltered
`summarize` over the table restricted to category-`c` rows, and every
returned pair carries category `c` itself. -/
theorem summarize_category_filter_spec (startDate endDate c : String)
    (db : DB) (hc : c ≠ "") :
    summarize startDate endDate (some c) db =
      summarize startDate endDate none
        ⟨db.rows.filter (fun e => e.category == c), db.nextId⟩ ∧
    ∀ p ∈ summarize startDate endDate (some c) db, p.1 = c := by
  have hrows : summarizeRows startDate endDate (some c) db =
      rowsInRange startDate endDate
        ⟨db.rows.filter (fun e => e.category == c), db.nextId⟩ := by
    simp only [summarizeRows, if_neg hc, rowsInRange, filter_filter_comm]
    exact List.filter_congr (fun e _ => Bool.and_comm _ _)
  constructor
  · show (groupKeys (summarizeRows startDate endDate (some c) db)).map _ = _
    rw [hrows]
    rfl
  · intro p hp
    simp only [summarize, List.mem_map] at hp
    obtain ⟨k, hk, rfl⟩ := hp
    obtain ⟨e, he, hcat⟩ := mem_groupKeys.mp hk
    simp only [summarizeRows, if_neg hc, List.mem_filter] at he
    have hec : e.category = c := by simpa using he.2
    simpa [← hcat] using hec

theorem summarize_category_filter_spec_witness :
    ("food" : String) ≠ "" ∧
    ∀ p ∈ summarize "2024-01-01" "2024-02-01" (some "food") sampleDB,
      p.1 = "food" :=
  ⟨by decide,
    (summarize_category_filter_spec "2024-01-01" "2024-02-01" "food" sampleDB
      (by decide)).2⟩

/-- C3, counterexample to the original claim: with the non-null but empty
category string `""`, `summarize` applies no category restriction at all
(`if args.category:` is falsy), so over a table whose only row has
category `"food"` it still returns that group — a pair whose category
differs from `""` — instead of aggregating only category-`""` rows. -/
theorem summarize_category_filter_spec_counterexample :
    summarize "a" "a" (some "") witnessDB = [("food", 3)] ∧
    ("food" : String) ≠ "" :=
  ⟨by simp [summarize, summarizeRows, rowsInRange, dateInRange, textLe_refl,
      groupKeys, insertCat, groupTotal, witnessDB],
    by decide⟩
